import Mathlib

/-! Verification development for the mixed-precision conversion advisor in
`src/transformer_deploy/backends/ort_utils.py`.  Python dictionaries are
embedded as insertion-ordered association lists whose lookup returns the most
recently inserted binding for a key (`dlookup`), matching `dict` overwrite
semantics.  Tensor element values are embedded as exact rationals; ONNX
protobuf messages are embedded structurally, with `ValueInfoProto` entries
reduced to their names (the only field the analysed code reads). -/

namespace OrtUtils

/-- Tensor element types appearing in `numpy_to_torch_dtype_dict`
(`ort_utils.py`, lines 150-162).  `torch.long` is an alias of `int64`. -/
inductive DType where
  | bool
  | uint8
  | int8
  | int16
  | int32
  | int64
  | float16
  | float32
  | float64
  | complex64
  | complex128
  deriving DecidableEq

/-- A tensor: an element type plus its flattened element values, embedded as
exact rationals. -/
structure Tensor where
  dtype : DType
  data : List ℚ
  deriving DecidableEq

/-- Lookup in an insertion-ordered association list, returning the most
recently inserted binding for the key: this is the value a Python `dict`
with the same insertion history returns for the key. -/
def dlookup {α : Type} : List (String × α) → String → Option α
  | [], _ => none
  | p :: l, k =>
    match dlookup l k with
    | some v => some v
    | none => if p.1 = k then some p.2 else none

/-- `torch.finfo(torch.float16).min` (line 298): exactly -65504. -/
def min_float16 : ℚ := -65504

/-- `torch.finfo(torch.float16).max` (line 299): exactly 65504. -/
def max_float16 : ℚ := 65504

/-- The literal `5.96e-08` hardcoded at line 300 of the source, as the exact
rational 596 / 10^10. -/
def resolution : ℚ := mkRat 596 10000000000

/-- The flagging condition of `find_node_fp32` (lines 305-309): some element
above the fp16 max, or some element below the fp16 min, or some nonzero
element strictly between `-resolution` and `resolution`. -/
def is_out_of_fp16_range (t : Tensor) : Bool :=
  t.data.any (fun x => decide (max_float16 < x))
    || t.data.any (fun x => decide (x < min_float16))
    || t.data.any (fun x =>
        decide (x < resolution) && decide (-resolution < x) && decide (x ≠ 0))

/-- `find_node_fp32` (lines 290-311): walk the sampled outputs in order, skip
tensors whose dtype is not float32, and for each flagged tensor append the
producing node `graph[k]`.  A missing key in `graph` is a Python `KeyError`,
embedded as `none`. -/
def find_node_fp32 (graph : List (String × String)) :
    List (String × Tensor) → Option (List String)
  | [] => some []
  | (k, t) :: rest =>
    if t.dtype ≠ DType.float32 then
      find_node_fp32 graph rest
    else if is_out_of_fp16_range t then
      match dlookup graph k with
      | none => none
      | some n => (find_node_fp32 graph rest).map (fun l => n :: l)
    else
      find_node_fp32 graph rest

/-- An ONNX `NodeProto`: name, input tensor names, output tensor names. -/
structure Node where
  name : String
  input : List String
  output : List String
  deriving DecidableEq

/-- An ONNX `GraphProto`: nodes plus graph-level inputs, outputs and
initializers (each reduced to its `.name`). -/
structure Graph where
  node : List Node
  input : List String
  output : List String
  initializer : List String
  deriving DecidableEq

/-- An ONNX `ModelProto`. -/
structure ModelProto where
  graph : Graph
  deriving DecidableEq

/-- `add_output_nodes` (lines 272-287): on a deep copy of the model, replace
the graph-level output list with one `ValueInfoProto` per node output, across
all nodes in node order. -/
def add_output_nodes (model : ModelProto) : ModelProto :=
  let output_nodes := model.graph.node.flatMap Node.output
  { model with graph := { model.graph with output := output_nodes } }

/-- The accumulator pass of `get_io_to_node_mapping` (lines 320-329): for each
node, assert it has exactly one output, record `output[0] -> node.name` in the
output mapping and `i -> node.name` for each input `i` in the input mapping.
Dict insertion is embedded as appending to the association list. -/
def ioPass : List Node → List (String × String) → List (String × String) →
    Except String (List (String × String) × List (String × String))
  | [], imap, omap => .ok (imap, omap)
  | node :: rest, imap, omap =>
    match node.output with
    | [o] =>
      ioPass rest (imap ++ node.input.map (fun i => (i, node.name)))
        (omap ++ [(o, node.name)])
    | _ => .error "assert failed: len of node output is not 1"

/-- `get_io_to_node_mapping` (lines 314-329): returns the pair
(input mapping, output mapping). -/
def get_io_to_node_mapping (g : Graph) :
    Except String (List (String × String) × List (String × String)) :=
  ioPass g.node [] []

/-- All (input-name, consuming-node-name) pairs of a node list, in insertion
order of the source loop. -/
def input_pairs (nodes : List Node) : List (String × String) :=
  nodes.flatMap (fun n => n.input.map (fun i => (i, n.name)))

/-- All (output-name, producing-node-name) pairs of a node list, in insertion
order of the source loop. -/
def output_pairs (nodes : List Node) : List (String × String) :=
  nodes.flatMap (fun n => n.output.map (fun o => (o, n.name)))

/-- `tensor.detach()` at line 239: value-preserving (autograd metadata is not
part of this embedding). -/
def detach (t : Tensor) : Tensor := t

/-- `tensor.contiguous()` at line 243: value-preserving (memory strides are
not part of this embedding). -/
def contiguous (t : Tensor) : Tensor := t

/-- Two's-complement wraparound of an integer into the signed 32-bit range
[-2147483648, 2147483648), i.e. [-2^31, 2^31): the value torch stores when an
int64 element is cast to int32. -/
def wrap_int32 (z : ℤ) : ℤ := (z + 2147483648) % 4294967296 - 2147483648

/-- `tensor.type(torch.int32)` at line 242: narrows the element type, and
values outside the signed 32-bit range wrap around, as torch's integer cast
does.  An int64 tensor's elements are integers embedded as integral
rationals, on which `Rat.floor` is exact. -/
def cast_int32 (t : Tensor) : Tensor :=
  ⟨DType.int32, t.data.map (fun x => ((wrap_int32 x.floor : ℤ) : ℚ))⟩

/-- The per-input preprocessing of `inference_onnx_binding` (lines 239-243):
detach, narrow `int64` (alias `torch.long`) to `int32`, make contiguous. -/
def prepare_input (t : Tensor) : Tensor :=
  let t1 := detach t
  let t2 := if t1.dtype = DType.int64 then cast_int32 t1 else t1
  contiguous t2

/-- The statically known interface of an `InferenceSession`: the names
returned by `get_inputs()` and `get_outputs()`. -/
structure Session where
  inputNames : List String
  outputNames : List String

/-- The input loop of `inference_onnx_binding` (lines 235-252): for each graph
input name, skip it when absent from the supplied mapping, otherwise
preprocess the tensor, bind it (first component: the bound (name, tensor)
pairs in order) and write the preprocessed tensor back into the caller's
mapping (second component). -/
def bind_inputs : List String → List (String × Tensor) →
    List (String × Tensor) × List (String × Tensor)
  | [], inputs => ([], inputs)
  | name :: rest, inputs =>
    match dlookup inputs name with
    | none => bind_inputs rest inputs
    | some t =>
      let t2 := prepare_input t
      let r := bind_inputs rest (inputs ++ [(name, t2)])
      ((name, t2) :: r.1, r.2)

/-- `inference_onnx_binding` (lines 204-269).  The execution engine itself is
external; it is abstracted as `engine`, mapping the bound inputs to the raw
output buffers (`binding.get_outputs()`).  The function validates the device
string, binds the present inputs (mutating the caller's input mapping), runs
the engine, asserts the output count matches the session's declared outputs,
and pairs output names with output tensors.  Result: (outputs, updated input
mapping). -/
def inference_onnx_binding (sess : Session)
    (engine : List (String × Tensor) → List Tensor)
    (inputs : List (String × Tensor)) (device : String) :
    Except String (List (String × Tensor) × List (String × Tensor)) :=
  if device = "cpu" ∨ device = "cuda" then
    let b := bind_inputs sess.inputNames inputs
    let outs := engine b.1
    if sess.outputNames.length = outs.length then
      .ok (sess.outputNames.zip outs, b.2)
    else
      .error "assert failed: output count mismatch"
  else
    .error "unexpected inference device"

/-- One iteration of the sampling loop of `get_keep_fp32_nodes`
(lines 376-383): given the accumulated list, the stall counter and the
detector's result for this iteration, append the nodes not already present
and update the counter. -/
def loop_step (keep : List String) (counter : ℕ) (found : List String) :
    List String × ℕ :=
  let nodes_to_add := found.filter (fun n => decide (n ∉ keep))
  (keep ++ nodes_to_add, if nodes_to_add.length = 0 then counter + 1 else 0)

/-- The state (`keep_fp32_nodes`, `no_new_node_counter`) of the sampling loop
after `i` iterations, where `d i` abstracts the detection result of iteration
`i` (the composition at lines 372-376 of sample generation, engine execution
and `find_node_fp32`). -/
def loop_state (d : ℕ → List String) : ℕ → List String × ℕ
  | 0 => ([], 0)
  | i + 1 => loop_step (loop_state d i).1 (loop_state d i).2 (d i)

/-- The `nodes_to_add` list computed during iteration `i` of the loop. -/
def adds_at (d : ℕ → List String) (i : ℕ) : List String :=
  (d i).filter (fun n => decide (n ∉ (loop_state d i).1))

/-- The executable sampling loop (lines 369-383), with the engine execution of
iteration `i` abstracted by `sample i` (the instrumented model's outputs for
that iteration's generated input).  `fuel` bounds the number of iterations the
model unfolds; the source loop itself is unbounded, so fuel exhaustion
(`none`) means only that the loop was still running. -/
def run_sampling (omap : List (String × String))
    (sample : ℕ → List (String × Tensor)) (early_stop : ℕ) :
    ℕ → ℕ → List String → ℕ → Option (List String)
  | 0, _, _, _ => none
  | fuel + 1, i, keep, counter =>
    if early_stop ≤ counter then some keep
    else
      match find_node_fp32 omap (sample i) with
      | none => none
      | some found =>
        let s := loop_step keep counter found
        run_sampling omap sample early_stop fuel (i + 1) s.1 s.2

/-- `nodes_to_skip` (lines 388-392): the graph-level input, output and
initializer names. -/
def nodes_to_skip (g : Graph) : List String :=
  g.input ++ g.output ++ g.initializer

/-- The (parent, child) pairs contributed by one node in the `map_children`
construction (lines 396-401): for each output not in the skip list, the
consumer recorded in the input mapping; a missing key is a `KeyError`
(`none`). -/
def node_child_pairs (parent : String) (imap : List (String × String))
    (skip : List String) : List String → Option (List (String × String))
  | [] => some []
  | o :: os =>
    if o ∈ skip then node_child_pairs parent imap skip os
    else
      match dlookup imap o with
      | none => none
      | some child =>
        (node_child_pairs parent imap skip os).map
          (fun l => (parent, child) :: l)

/-- The full `map_children` construction (lines 395-401), flattened to a list
of (parent, child) pairs in insertion order.  `map_children[k]` is recovered
as the sub-list of pairs with first component `k`. -/
def build_children (imap : List (String × String)) (skip : List String) :
    List Node → Option (List (String × String))
  | [] => some []
  | node :: rest =>
    match node_child_pairs node.name imap skip node.output,
        build_children imap skip rest with
    | some a, some b => some (a ++ b)
    | _, _ => none

/-- `map_children[k]`: the children recorded for parent `k`, in insertion
order. -/
def children_of (pairs : List (String × String)) (k : String) : List String :=
  (pairs.filter (fun p => decide (p.1 = k))).map Prod.snd

/-- The dependency-propagation line (line 402):
`keep += [c for k in keep if k in map_children for c in map_children[k]]`.
The comprehension is evaluated over the list as it stood before the
extension. -/
def propagate (keep : List String) (pairs : List (String × String)) :
    List String :=
  keep ++ keep.flatMap (fun k =>
    if pairs.any (fun p => decide (p.1 = k)) then children_of pairs k else [])

/-- `get_keep_fp32_nodes` (lines 345-403), with engine execution abstracted by
`sample` and the unbounded while loop unfolded with `fuel` iterations: build
the I/O mappings, run the sampling loop, then append the children of every
accumulated node. -/
def get_keep_fp32_nodes (g : Graph) (sample : ℕ → List (String × Tensor))
    (early_stop fuel : ℕ) : Option (List String) :=
  match get_io_to_node_mapping g with
  | .error _ => none
  | .ok (imap, omap) =>
    match run_sampling omap sample early_stop fuel 0 [] 0 with
    | none => none
    | some keep =>
      match build_children imap (nodes_to_skip g) g.node with
      | none => none
      | some pairs => some (propagate keep pairs)

/-! Concrete instances used for counterexamples and witnesses. -/

/-- A two-node chain: `inp -> A -> x -> B -> y`, with `y` the graph output. -/
def gChain : Graph :=
  ⟨[⟨"A", ["inp"], ["x"]⟩, ⟨"B", ["x"], ["y"]⟩], ["inp"], ["y"], []⟩

/-- A float32 tensor whose single element 100000 exceeds the fp16 maximum. -/
def tBig : Tensor := ⟨DType.float32, [100000]⟩

/-- A constant sample stream: every iteration observes `tBig` on both node
outputs of `gChain`. -/
def sampleBig : ℕ → List (String × Tensor) := fun _ => [("x", tBig), ("y", tBig)]

/-- A constant detection stream flagging node "A" at every iteration. -/
def dConstA : ℕ → List String := fun _ => ["A"]

/-- A session with the single graph input "ids" and no outputs. -/
def sessIds : Session := ⟨["ids"], []⟩

/-- An engine producing no output buffers. -/
def engineEmpty : List (String × Tensor) → List Tensor := fun _ => []

/-- An int64 tensor with the single element 5. -/
def tInt64 : Tensor := ⟨DType.int64, [5]⟩

/-- A graph in which output "x" of node A feeds both B and C. -/
def gMulti : Graph :=
  ⟨[⟨"A", ["inp"], ["x"]⟩, ⟨"B", ["x"], ["y"]⟩, ⟨"C", ["x"], ["z"]⟩],
    ["inp"], ["y", "z"], []⟩

/-- The input mapping `get_io_to_node_mapping` builds for `gMulti`: the key
"x" holds only the last consumer, "C". -/
def imapMulti : List (String × String) := [("inp", "A"), ("x", "B"), ("x", "C")]

/-- A graph with two single-output nodes sharing the output name "x". -/
def gDupOut : Graph :=
  ⟨[⟨"A", ["inp"], ["x"]⟩, ⟨"B", ["inp"], ["x"]⟩], ["inp"], [], []⟩

/-! Helper lemmas about the association-list embedding of Python dicts. -/

theorem dlookup_append {α : Type} (l1 l2 : List (String × α)) (k : String) :
    dlookup (l1 ++ l2) k =
      match dlookup l2 k with
      | some v => some v
      | none => dlookup l1 k := by
  induction l1 with
  | nil => cases h : dlookup l2 k <;> simp [dlookup, h]
  | cons p l1 ih =>
    rw [List.cons_append, dlookup, ih]
    cases h2 : dlookup l2 k <;> cases h1 : dlookup l1 k <;>
      simp [dlookup, h1, h2]

theorem dlookup_mem {α : Type} {l : List (String × α)} {k : String} {v : α}
    (h : dlookup l k = some v) : (k, v) ∈ l := by
  induction l with
  | nil => exact absurd h (by simp [dlookup])
  | cons p l ih =>
    rw [dlookup] at h
    cases hl : dlookup l k with
    | some w =>
      rw [hl] at h
      obtain rfl : w = v := Option.some.inj h
      exact List.mem_cons_of_mem _ (ih hl)
    | none =>
      rw [hl] at h
      by_cases hp : p.1 = k
      · rw [if_pos hp] at h
        rcases p with ⟨a, b⟩
        simp only at hp h
        subst hp
        obtain rfl : b = v := Option.some.inj h
        exact List.mem_cons_self _ _
      · rw [if_neg hp] at h
        exact absurd h (by simp)

theorem dlookup_isSome_of_mem {α : Type} {l : List (String × α)} {k : String}
    {v : α} (h : (k, v) ∈ l) : ∃ w, dlookup l k = some w := by
  induction l with
  | nil => simp at h
  | cons p l ih =>
    rw [dlookup]
    rcases hl : dlookup l k with _ | w
    · rcases List.mem_cons.mp h with rfl | hm
      · exact ⟨v, by simp⟩
      · obtain ⟨w, hw⟩ := ih hm
        simp [hw] at hl
    · exact ⟨w, rfl⟩

theorem dlookup_eq_none_of_not_mem_keys {α : Type} {l : List (String × α)}
    {k : String} (h : k ∉ l.map Prod.fst) : dlookup l k = none := by
  induction l with
  | nil => rfl
  | cons p l ih =>
    simp only [List.map_cons, List.mem_cons] at h
    push_neg at h
    have hp : ¬ (p.1 = k) := fun hc => h.1 hc.symm
    simp [dlookup, ih h.2, hp]

theorem dlookup_of_nodup_mem {α : Type} {l : List (String × α)} {k : String}
    {v : α} (hnd : (l.map Prod.fst).Nodup) (h : (k, v) ∈ l) :
    dlookup l k = some v := by
  induction l with
  | nil => simp at h
  | cons p l ih =>
    simp only [List.map_cons, List.nodup_cons] at hnd
    rcases List.mem_cons.mp h with rfl | hm
    · rw [dlookup, dlookup_eq_none_of_not_mem_keys hnd.1]
      simp
    · rw [dlookup, ih hnd.2 hm]

theorem dlookup_append_singleton {α : Type} (l : List (String × α))
    (n k : String) (v : α) :
    dlookup (l ++ [(n, v)]) k = if n = k then some v else dlookup l k := by
  rw [dlookup_append]
  by_cases h : n = k <;> simp [dlookup, h]

/-- Wraparound is the identity on values already inside the signed 32-bit
range. -/
theorem wrap_int32_eq_self (z : ℤ) (hlo : -2147483648 ≤ z)
    (hhi : z < 2147483648) : wrap_int32 z = z := by
  unfold wrap_int32
  omega

/-- `prepare_input` is idempotent: a narrowed tensor is no longer `int64`. -/
theorem prepare_input_idem (t : Tensor) :
    prepare_input (prepare_input t) = prepare_input t := by
  by_cases h : t.dtype = DType.int64 <;>
    simp [prepare_input, detach, contiguous, cast_int32, h]

/-- Effect of the input loop on the caller's mapping: a graph input present in
the mapping ends up bound to its preprocessed tensor, every other key is
untouched. -/
theorem bind_inputs_snd_lookup (ns : List String)
    (ins : List (String × Tensor)) (k : String) :
    dlookup (bind_inputs ns ins).2 k =
      match dlookup ins k with
      | none => none
      | some t => if k ∈ ns then some (prepare_input t) else some t := by
  induction ns generalizing ins with
  | nil =>
    cases h : dlookup ins k <;> simp [bind_inputs, h]
  | cons n rest ih =>
    rw [bind_inputs]
    rcases hn : dlookup ins n with _ | t
    · rcases hk : dlookup ins k with _ | t
      · simp [ih, hk]
      · have hkn : k ≠ n := by
          rintro rfl
          rw [hk] at hn
          exact Option.noConfusion hn
        simp [ih, hk, List.mem_cons, hkn]
    · simp only
      rw [ih]
      rw [dlookup_append_singleton]
      by_cases hkn : k = n
      · subst hkn
        rw [if_pos rfl, hn]
        by_cases hmem : k ∈ rest <;>
          simp [hmem, prepare_input_idem]
      · rw [if_neg (fun h => hkn h.symm)]
        rcases hk : dlookup ins k with _ | u
        · simp
        · simp [List.mem_cons, hkn]

theorem ioPass_ok (nodes : List Node)
    (h : ∀ n ∈ nodes, n.output.length = 1) :
    ∀ imap omap, ioPass nodes imap omap =
      .ok (imap ++ input_pairs nodes, omap ++ output_pairs nodes) := by
  induction nodes with
  | nil => intro imap omap; simp [ioPass, input_pairs, output_pairs]
  | cons n rest ih =>
    intro imap omap
    obtain ⟨o, ho⟩ := List.length_eq_one.mp (h n (List.mem_cons_self _ _))
    have hrest : ∀ m ∈ rest, m.output.length = 1 :=
      fun m hm => h m (List.mem_cons_of_mem _ hm)
    rw [ioPass, ho]
    show ioPass rest (imap ++ n.input.map (fun i => (i, n.name)))
        (omap ++ [(o, n.name)]) =
      Except.ok (imap ++ input_pairs (n :: rest), omap ++ output_pairs (n :: rest))
    rw [ih hrest]
    simp [input_pairs, output_pairs, ho, List.append_assoc]

theorem ioPass_error (nodes : List Node)
    (h : ∃ n ∈ nodes, n.output.length ≠ 1) :
    ∀ imap omap, ∃ e, ioPass nodes imap omap = .error e := by
  induction nodes with
  | nil => simp at h
  | cons n rest ih =>
    intro imap omap
    rcases h with ⟨m, hm, hlen⟩
    rcases List.mem_cons.mp hm with rfl | hmr
    · rw [ioPass]
      cases hno : m.output with
      | nil => exact ⟨_, rfl⟩
      | cons o os =>
        cases os with
        | nil => exact absurd (by rw [hno]; rfl) hlen
        | cons o2 os2 => exact ⟨_, rfl⟩
    · rw [ioPass]
      cases hno : n.output with
      | nil => exact ⟨_, rfl⟩
      | cons o os =>
        cases os with
        | nil => exact ih ⟨m, hmr, hlen⟩ _ _
        | cons o2 os2 => exact ⟨_, rfl⟩

theorem output_pairs_keys (nodes : List Node) :
    (output_pairs nodes).map Prod.fst = nodes.flatMap Node.output := by
  induction nodes with
  | nil => rfl
  | cons n rest ih =>
    simp only [output_pairs] at ih
    simp [output_pairs, List.map_map, Function.comp_def, ih]

theorem mem_output_pairs {nodes : List Node} {n : Node} (hn : n ∈ nodes)
    {o : String} (ho : o ∈ n.output) : (o, n.name) ∈ output_pairs nodes := by
  simp only [output_pairs, List.mem_flatMap, List.mem_map]
  exact ⟨n, hn, o, ho, rfl⟩

theorem mem_input_pairs {nodes : List Node} {n : Node} (hn : n ∈ nodes)
    {i : String} (hi : i ∈ n.input) : (i, n.name) ∈ input_pairs nodes := by
  simp only [input_pairs, List.mem_flatMap, List.mem_map]
  exact ⟨n, hn, i, hi, rfl⟩

theorem mem_input_pairs_elim {nodes : List Node} {i w : String}
    (h : (i, w) ∈ input_pairs nodes) :
    ∃ n ∈ nodes, w = n.name ∧ i ∈ n.input := by
  simp only [input_pairs, List.mem_flatMap, List.mem_map] at h
  obtain ⟨n, hn, a, ha, heq⟩ := h
  obtain ⟨rfl, rfl⟩ : a = i ∧ n.name = w := by
    constructor <;> [exact congrArg Prod.fst heq; exact congrArg Prod.snd heq]
  exact ⟨n, hn, rfl, ha⟩

/-- The stall counter after `n` iterations counts a run of trailing
no-discovery iterations: it never exceeds `n`, and the last `counter` many
iterations before `n` all discovered nothing. -/
theorem loop_counter_window (d : ℕ → List String) :
    ∀ n, (loop_state d n).2 ≤ n ∧
      ∀ j, j < n → n ≤ j + (loop_state d n).2 → adds_at d j = [] := by
  intro n
  induction n with
  | zero => exact ⟨le_rfl, fun j hj _ => absurd hj (Nat.not_lt_zero j)⟩
  | succ n ih =>
    have hstep : (loop_state d (n + 1)).2 =
        if (adds_at d n).length = 0 then (loop_state d n).2 + 1 else 0 := rfl
    by_cases hlen : (adds_at d n).length = 0
    · have hempty : adds_at d n = [] := List.length_eq_zero.mp hlen
      rw [hstep, if_pos hlen]
      refine ⟨Nat.succ_le_succ ih.1, ?_⟩
      intro j hj hle
      rcases Nat.lt_succ_iff_lt_or_eq.mp hj with hj' | rfl
      · exact ih.2 j hj' (by omega)
      · exact hempty
    · rw [hstep, if_neg hlen]
      exact ⟨Nat.zero_le _, fun j hj hle => absurd hle (by omega)⟩

/-- From a point where the stall counter is zero, a run of no-discovery
iterations makes the counter climb by exactly one per iteration. -/
theorem loop_counter_climb (d : ℕ → List String) (m : ℕ)
    (h0 : (loop_state d m).2 = 0) :
    ∀ k, (∀ j, j < m + k → m ≤ j → adds_at d j = []) →
      (loop_state d (m + k)).2 = k := by
  intro k
  induction k with
  | zero => intro _; simpa using h0
  | succ k ih =>
    intro hall
    have hk : (loop_state d (m + k)).2 = k :=
      ih (fun j hj hm => hall j (by omega) hm)
    have hempty : adds_at d (m + k) = [] := hall (m + k) (by omega) (by omega)
    have hstep : (loop_state d ((m + k) + 1)).2 =
        if (adds_at d (m + k)).length = 0 then (loop_state d (m + k)).2 + 1
        else 0 := rfl
    show (loop_state d ((m + k) + 1)).2 = k + 1
    rw [hstep, hempty]
    simp [hk]

/-- The accumulated list at a later iteration extends the accumulated list at
any earlier iteration. -/
theorem loop_keep_suffix (d : ℕ → List String) (i j : ℕ) (h : i ≤ j) :
    ∃ t, (loop_state d j).1 = (loop_state d i).1 ++ t := by
  induction j, h using Nat.le_induction with
  | base => exact ⟨[], (List.append_nil _).symm⟩
  | succ n hn ih =>
    obtain ⟨t, ht⟩ := ih
    have hstep : (loop_state d (n + 1)).1 =
        (loop_state d n).1 ++ adds_at d n := rfl
    exact ⟨t ++ adds_at d n, by rw [hstep, ht, List.append_assoc]⟩

theorem node_child_pairs_sound {parent : String}
    {imap : List (String × String)} {skip : List String} {outs : List String}
    {l : List (String × String)}
    (h : node_child_pairs parent imap skip outs = some l) :
    ∀ o ∈ outs, o ∉ skip → ∀ c, dlookup imap o = some c → (parent, c) ∈ l := by
  induction outs generalizing l with
  | nil => intro o ho; simp at ho
  | cons o' os ih =>
    rw [node_child_pairs] at h
    by_cases hskip : o' ∈ skip
    · rw [if_pos hskip] at h
      intro o ho hos c hc
      rcases List.mem_cons.mp ho with rfl | ho'
      · exact absurd hskip hos
      · exact ih h o ho' hos c hc
    · rw [if_neg hskip] at h
      cases hl : dlookup imap o' with
      | none => rw [hl] at h; exact absurd h (by simp)
      | some child =>
        rw [hl] at h
        cases hrec : node_child_pairs parent imap skip os with
        | none => rw [hrec] at h; exact absurd h (by simp)
        | some l' =>
          rw [hrec] at h
          obtain rfl : (parent, child) :: l' = l := by simpa using h
          intro o ho hos c hc
          rcases List.mem_cons.mp ho with rfl | ho'
          · rw [hl] at hc
            obtain rfl : child = c := Option.some.inj hc
            exact List.mem_cons_self _ _
          · exact List.mem_cons_of_mem _ (ih hrec o ho' hos c hc)

theorem node_child_pairs_complete {parent : String}
    {imap : List (String × String)} {skip : List String} {outs : List String}
    {l : List (String × String)}
    (h : node_child_pairs parent imap skip outs = some l) :
    ∀ q ∈ l, q.1 = parent ∧
      ∃ o ∈ outs, o ∉ skip ∧ dlookup imap o = some q.2 := by
  induction outs generalizing l with
  | nil =>
    rw [node_child_pairs] at h
    obtain rfl : ([] : List (String × String)) = l := by simpa using h
    intro q hq
    simp at hq
  | cons o' os ih =>
    rw [node_child_pairs] at h
    by_cases hskip : o' ∈ skip
    · rw [if_pos hskip] at h
      intro q hq
      obtain ⟨hq1, o, ho, hos, hlo⟩ := ih h q hq
      exact ⟨hq1, o, List.mem_cons_of_mem _ ho, hos, hlo⟩
    · rw [if_neg hskip] at h
      cases hl : dlookup imap o' with
      | none => rw [hl] at h; exact absurd h (by simp)
      | some child =>
        rw [hl] at h
        cases hrec : node_child_pairs parent imap skip os with
        | none => rw [hrec] at h; exact absurd h (by simp)
        | some l' =>
          rw [hrec] at h
          obtain rfl : (parent, child) :: l' = l := by simpa using h
          intro q hq
          rcases List.mem_cons.mp hq with rfl | hq'
          · exact ⟨rfl, o', List.mem_cons_self _ _, hskip, hl⟩
          · obtain ⟨hq1, o, ho, hos, hlo⟩ := ih hrec q hq'
            exact ⟨hq1, o, List.mem_cons_of_mem _ ho, hos, hlo⟩

theorem build_children_sound {imap : List (String × String)}
    {skip : List String} {nodes : List Node} {pairs : List (String × String)}
    (h : build_children imap skip nodes = some pairs) :
    ∀ p ∈ nodes, ∀ o ∈ p.output, o ∉ skip → ∀ c, dlookup imap o = some c →
      (p.name, c) ∈ pairs := by
  induction nodes generalizing pairs with
  | nil => intro p hp; simp at hp
  | cons n rest ih =>
    rw [build_children] at h
    cases ha : node_child_pairs n.name imap skip n.output with
    | none => rw [ha] at h; exact absurd h (by simp)
    | some a =>
      cases hb : build_children imap skip rest with
      | none => rw [ha, hb] at h; exact absurd h (by simp)
      | some b =>
        rw [ha, hb] at h
        obtain rfl : a ++ b = pairs := by simpa using h
        intro p hp o ho hos c hc
        rcases List.mem_cons.mp hp with rfl | hp'
        · exact List.mem_append_left _ (node_child_pairs_sound ha o ho hos c hc)
        · exact List.mem_append_right _ (ih hb p hp' o ho hos c hc)

theorem build_children_complete {imap : List (String × String)}
    {skip : List String} {nodes : List Node} {pairs : List (String × String)}
    (h : build_children imap skip nodes = some pairs) :
    ∀ q ∈ pairs, ∃ p ∈ nodes, p.name = q.1 ∧
      ∃ o ∈ p.output, o ∉ skip ∧ dlookup imap o = some q.2 := by
  induction nodes generalizing pairs with
  | nil =>
    rw [build_children] at h
    obtain rfl : ([] : List (String × String)) = pairs := by simpa using h
    intro q hq
    simp at hq
  | cons n rest ih =>
    rw [build_children] at h
    cases ha : node_child_pairs n.name imap skip n.output with
    | none => rw [ha] at h; exact absurd h (by simp)
    | some a =>
      cases hb : build_children imap skip rest with
      | none => rw [ha, hb] at h; exact absurd h (by simp)
      | some b =>
        rw [ha, hb] at h
        obtain rfl : a ++ b = pairs := by simpa using h
        intro q hq
        rcases List.mem_append.mp hq with hqa | hqb
        · obtain ⟨hq1, o, ho, hos, hlo⟩ := node_child_pairs_complete ha q hqa
          exact ⟨n, List.mem_cons_self _ _, hq1.symm, o, ho, hos, hlo⟩
        · obtain ⟨p, hp, hq1, o, ho, hos, hlo⟩ := ih hb q hqb
          exact ⟨p, List.mem_cons_of_mem _ hp, hq1, o, ho, hos, hlo⟩

/-! Claim theorems. -/

/-- C8: `add_output_nodes` returns a copy of the model whose graph-level
output list is exactly one entry per node output across all nodes, in node
order, while the nodes, graph inputs and initializers are unchanged; the
embedding is a pure function of the input model, which is therefore not
mutated. -/
theorem add_output_nodes_spec (m : ModelProto) :
    (add_output_nodes m).graph.output = m.graph.node.flatMap Node.output ∧
    (add_output_nodes m).graph.node = m.graph.node ∧
    (add_output_nodes m).graph.input = m.graph.input ∧
    (add_output_nodes m).graph.initializer = m.graph.initializer :=
  ⟨rfl, rfl, rfl, rfl⟩

/-- C9: `inference_onnx_binding` fails with the device-validation error for
every device string other than "cpu" and "cuda" (before any binding work, as
the error branch returns immediately), and for those two strings the device
check passes: the device-validation error is never the result. -/
theorem inference_device_validation (sess : Session)
    (engine : List (String × Tensor) → List Tensor)
    (inputs : List (String × Tensor)) (device : String) :
    (device ≠ "cpu" → device ≠ "cuda" →
      inference_onnx_binding sess engine inputs device =
        .error "unexpected inference device") ∧
    (device = "cpu" ∨ device = "cuda" →
      inference_onnx_binding sess engine inputs device ≠
        .error "unexpected inference device") := by
  constructor
  · intro h1 h2
    have hcond : ¬ (device = "cpu" ∨ device = "cuda") := by tauto
    simp only [inference_onnx_binding, if_neg hcond]
  · intro h hcontra
    simp only [inference_onnx_binding, if_pos h] at hcontra
    split at hcontra
    · exact Except.noConfusion hcontra
    · injection hcontra with hs
      exact absurd hs (by decide)

/-- Witness for C9 at the concrete devices "tpu" (rejected) and "cpu"
(accepted). -/
theorem inference_device_validation_witness :
    (("tpu" : String) ≠ "cpu" ∧ ("tpu" : String) ≠ "cuda" ∧
      inference_onnx_binding sessIds engineEmpty [] "tpu" =
        .error "unexpected inference device") ∧
    ((("cpu" : String) = "cpu" ∨ ("cpu" : String) = "cuda") ∧
      inference_onnx_binding sessIds engineEmpty [] "cpu" ≠
        .error "unexpected inference device") :=
  ⟨⟨by decide, by decide,
      (inference_device_validation sessIds engineEmpty [] "tpu").1
        (by decide) (by decide)⟩,
    ⟨Or.inl rfl,
      (inference_device_validation sessIds engineEmpty [] "cpu").2 (Or.inl rfl)⟩⟩

/-- C6: on a successful call, every graph input present in the supplied
mapping is written back preprocessed (detached, contiguous, and narrowed from
int64 to int32, the payload wrapping into the signed 32-bit range as torch's
cast does and kept verbatim when already within that range), inputs missing
from the mapping are skipped, and keys outside the graph inputs are
untouched. -/
theorem inference_int64_narrowing (sess : Session)
    (engine : List (String × Tensor) → List Tensor)
    (inputs : List (String × Tensor)) (device : String)
    (outs inputs2 : List (String × Tensor)) (name : String) (t : Tensor)
    (h : inference_onnx_binding sess engine inputs device = .ok (outs, inputs2)) :
    (name ∈ sess.inputNames → dlookup inputs name = some t →
      dlookup inputs2 name = some (prepare_input t) ∧
        (t.dtype = DType.int64 →
          (prepare_input t).dtype = DType.int32 ∧
          (prepare_input t).data =
            t.data.map (fun x => ((wrap_int32 x.floor : ℤ) : ℚ)) ∧
          ((∀ x ∈ t.data, ((x.floor : ℤ) : ℚ) = x ∧
              -2147483648 ≤ x ∧ x < 2147483648) →
            (prepare_input t).data = t.data))) ∧
    (dlookup inputs name = none → dlookup inputs2 name = none) ∧
    (name ∉ sess.inputNames → dlookup inputs2 name = dlookup inputs name) := by
  have h2 : inputs2 = (bind_inputs sess.inputNames inputs).2 := by
    by_cases hdev : device = "cpu" ∨ device = "cuda"
    · simp only [inference_onnx_binding, if_pos hdev] at h
      split at h
      · injection h with hpair
        exact (congrArg Prod.snd hpair).symm
      · exact Except.noConfusion h
    · simp only [inference_onnx_binding, if_neg hdev] at h
      exact Except.noConfusion h
  subst h2
  refine ⟨?_, ?_, ?_⟩
  · intro hmem hsome
    constructor
    · rw [bind_inputs_snd_lookup, hsome]
      simp [hmem]
    · intro h64
      refine ⟨by simp [prepare_input, detach, contiguous, cast_int32, h64],
        by simp [prepare_input, detach, contiguous, cast_int32, h64], ?_⟩
      intro hrange
      have hdata : (prepare_input t).data =
          t.data.map (fun x => ((wrap_int32 x.floor : ℤ) : ℚ)) := by
        simp [prepare_input, detach, contiguous, cast_int32, h64]
      rw [hdata]
      have hid : ∀ x ∈ t.data, ((wrap_int32 x.floor : ℤ) : ℚ) = x := by
        intro x hx
        obtain ⟨hfl, hlo, hhi⟩ := hrange x hx
        have hlo' : -2147483648 ≤ x.floor := by
          rw [← hfl] at hlo
          exact_mod_cast hlo
        have hhi' : x.floor < 2147483648 := by
          rw [← hfl] at hhi
          exact_mod_cast hhi
        rw [wrap_int32_eq_self x.floor hlo' hhi', hfl]
      calc t.data.map (fun x => ((wrap_int32 x.floor : ℤ) : ℚ))
          = t.data.map id := List.map_congr_left hid
        _ = t.data := List.map_id _
  · intro hnone
    rw [bind_inputs_snd_lookup, hnone]
  · intro hnotmem
    rw [bind_inputs_snd_lookup]
    cases hk : dlookup inputs name <;> simp [hnotmem]

/-- Witness for C6: the int64 tensor bound under "ids" is written back to the
caller's mapping narrowed to int32, and since its payload 5 lies within the
signed 32-bit range it is preserved verbatim. -/
theorem inference_int64_narrowing_witness :
    inference_onnx_binding sessIds engineEmpty [("ids", tInt64)] "cpu" =
      .ok ([], [("ids", tInt64), ("ids", ⟨DType.int32, [5]⟩)]) ∧
    dlookup [("ids", tInt64), ("ids", ⟨DType.int32, [5]⟩)] "ids" =
      some (prepare_input tInt64) ∧
    (prepare_input tInt64).dtype = DType.int32 ∧
    (prepare_input tInt64).data = tInt64.data := by
  have h : inference_onnx_binding sessIds engineEmpty [("ids", tInt64)] "cpu" =
      .ok ([], [("ids", tInt64), ("ids", ⟨DType.int32, [5]⟩)]) := by rfl
  have hmain := inference_int64_narrowing sessIds engineEmpty
    [("ids", tInt64)] "cpu" [] [("ids", tInt64), ("ids", ⟨DType.int32, [5]⟩)]
    "ids" tInt64 h
  have h64 := (hmain.1 (by decide) (by rfl)).2 (by rfl)
  refine ⟨h, (hmain.1 (by decide) (by rfl)).1, h64.1, ?_⟩
  exact h64.2.2 (by decide)

/-- C3: a successful `find_node_fp32` run returns exactly the producing-node
names, looked up in the output-to-node mapping, of the sampled float32
tensors that are flagged, in sample order; tensors of other element types are
never inspected (they are filtered out regardless of their values), and a
tensor is flagged exactly when some element lies strictly outside the closed
range from the fp16 minimum to the fp16 maximum, or some nonzero element has
absolute value strictly below `resolution`; the embedding is a pure function
of its inputs. -/
theorem find_node_fp32_spec (graph : List (String × String))
    (outs : List (String × Tensor)) (l : List String)
    (h : find_node_fp32 graph outs = some l) :
    l = (outs.filter (fun p =>
          decide (p.2.dtype = DType.float32) && is_out_of_fp16_range p.2)).filterMap
        (fun p => dlookup graph p.1) ∧
    ∀ t : Tensor, is_out_of_fp16_range t = true ↔
      ((∃ x ∈ t.data, x < min_float16 ∨ max_float16 < x) ∨
        ∃ x ∈ t.data, x ≠ 0 ∧ |x| < resolution) := by
  constructor
  · induction outs generalizing l with
    | nil =>
      obtain rfl : ([] : List String) = l := by
        simpa [find_node_fp32] using h
      simp
    | cons p rest ih =>
      obtain ⟨k, t⟩ := p
      rw [find_node_fp32] at h
      by_cases hd : t.dtype = DType.float32
      · rw [if_neg (by simp [hd])] at h
        by_cases hv : is_out_of_fp16_range t
        · rw [if_pos hv] at h
          cases hg : dlookup graph k with
          | none => rw [hg] at h; exact absurd h (by simp)
          | some n =>
            rw [hg] at h
            obtain ⟨l', hl', rfl⟩ := Option.map_eq_some'.mp h
            rw [List.filter_cons_of_pos (by simp [hd, hv]),
              List.filterMap_cons]
            simp only [hg]
            rw [ih l' hl']
        · have hvf : is_out_of_fp16_range t = false := by simpa using hv
          rw [if_neg hv] at h
          rw [List.filter_cons_of_neg (by simp [hvf])]
          exact ih l h
      · rw [if_pos hd] at h
        rw [List.filter_cons_of_neg (by simp [hd])]
        exact ih l h
  · intro t
    simp only [is_out_of_fp16_range, Bool.or_eq_true, List.any_eq_true,
      decide_eq_true_eq, Bool.and_eq_true, abs_lt]
    constructor
    · rintro ((⟨x, hx, hgt⟩ | ⟨x, hx, hlt⟩) | ⟨x, hx, ⟨h1, h2⟩, h3⟩)
      · exact Or.inl ⟨x, hx, Or.inr hgt⟩
      · exact Or.inl ⟨x, hx, Or.inl hlt⟩
      · exact Or.inr ⟨x, hx, h3, h2, h1⟩
    · rintro (⟨x, hx, hlt | hgt⟩ | ⟨x, hx, hne, hlo, hhi⟩)
      · exact Or.inl (Or.inr ⟨x, hx, hlt⟩)
      · exact Or.inl (Or.inl ⟨x, hx, hgt⟩)
      · exact Or.inr ⟨x, hx, ⟨hhi, hlo⟩, hne⟩

/-- Witness for C3 at a one-tensor sample whose value 70000 exceeds the fp16
maximum. -/
theorem find_node_fp32_spec_witness :
    find_node_fp32 [("x", "A")] [("x", ⟨DType.float32, [70000]⟩)] =
      some ["A"] ∧
    (["A"] : List String) =
      (([("x", (⟨DType.float32, [70000]⟩ : Tensor))].filter (fun p =>
          decide (p.2.dtype = DType.float32) && is_out_of_fp16_range p.2)).filterMap
        (fun p => dlookup [("x", "A")] p.1)) := by
  have h : find_node_fp32 [("x", "A")] [("x", ⟨DType.float32, [70000]⟩)] =
      some ["A"] := by decide
  exact ⟨h, (find_node_fp32_spec [("x", "A")]
    [("x", ⟨DType.float32, [70000]⟩)] ["A"] h).1⟩

/-- C4: the stall counter resets to zero on any iteration that discovers a
new node and increments otherwise; from a reset point, a run of `k`
no-discovery iterations leaves the counter at exactly `k`, so the loop
condition `no_new_node_counter < early_stop` first fails exactly
`early_stop` iterations after the last discovery; conversely a counter at or
above `early_stop` can only arise from at least `early_stop` consecutive
no-discovery iterations, so there is no other termination path. -/
theorem sampling_loop_termination (d : ℕ → List String)
    (early_stop m n : ℕ) :
    ((loop_state d (n + 1)).2 =
      if (adds_at d n).length = 0 then (loop_state d n).2 + 1 else 0) ∧
    ((loop_state d m).2 = 0 →
      ∀ k, (∀ j, j < m + k → m ≤ j → adds_at d j = []) →
        (loop_state d (m + k)).2 = k) ∧
    (early_stop ≤ (loop_state d n).2 →
      early_stop ≤ n ∧ ∀ j, j < n → n ≤ j + early_stop → adds_at d j = []) := by
  refine ⟨rfl, loop_counter_climb d m, ?_⟩
  intro h
  obtain ⟨hle, hwin⟩ := loop_counter_window d n
  exact ⟨le_trans h hle, fun j hj hle2 => hwin j hj (by omega)⟩

/-- Witness for C4: with the constant detection stream `dConstA` and stall
threshold 3, the last discovery happens at iteration 0, the counter is 0
after iteration 1, and exactly 3 further no-discovery iterations bring the
counter to the threshold. -/
theorem sampling_loop_termination_witness :
    (loop_state dConstA 1).2 = 0 ∧
    (∀ j, j < 1 + 3 → 1 ≤ j → adds_at dConstA j = []) ∧
    (loop_state dConstA (1 + 3)).2 = 3 :=
  ⟨by decide, by decide,
    (sampling_loop_termination dConstA 3 1 0).2.1 (by decide) 3 (by decide)⟩

/-- C5: each iteration of the sampling loop only appends the newly flagged
names not already present, so the accumulated list at any iteration is a
prefix (hence a superset-preserving extension) of the list at every later
iteration; nothing is ever removed or replaced. -/
theorem sampling_loop_monotone (d : ℕ → List String) (i j : ℕ) (h : i ≤ j) :
    ((loop_state d (i + 1)).1 = (loop_state d i).1 ++ adds_at d i) ∧
    (∃ t, (loop_state d j).1 = (loop_state d i).1 ++ t) ∧
    (∀ x, x ∈ (loop_state d i).1 → x ∈ (loop_state d j).1) := by
  refine ⟨rfl, loop_keep_suffix d i j h, ?_⟩
  obtain ⟨t, ht⟩ := loop_keep_suffix d i j h
  intro x hx
  rw [ht]
  exact List.mem_append_left _ hx

/-- Witness for C5 at the constant detection stream and iterations 1 and
2. -/
theorem sampling_loop_monotone_witness :
    (1 : ℕ) ≤ 2 ∧
    (((loop_state dConstA (1 + 1)).1 = (loop_state dConstA 1).1 ++ adds_at dConstA 1) ∧
      (∃ t, (loop_state dConstA 2).1 = (loop_state dConstA 1).1 ++ t) ∧
      (∀ x, x ∈ (loop_state dConstA 1).1 → x ∈ (loop_state dConstA 2).1)) :=
  ⟨by decide, sampling_loop_monotone dConstA 1 2 (by decide)⟩

/-- C7 counterexample: in `gDupOut` every node has exactly one output, yet
the output mapping does not send node A's output name "x" to A: the later
producer B overwrites the dict entry, so the claim that each node's single
output name maps to that node's name fails. -/
theorem get_io_duplicate_output_name :
    (∀ n ∈ gDupOut.node, n.output.length = 1) ∧
    get_io_to_node_mapping gDupOut =
      .ok ([("inp", "A"), ("inp", "B")], [("x", "A"), ("x", "B")]) ∧
    dlookup [("x", "A"), ("x", "B")] "x" = some "B" ∧
    ¬ (∀ n ∈ gDupOut.node, ∀ o ∈ n.output,
        dlookup [("x", "A"), ("x", "B")] o = some n.name) :=
  ⟨by decide, by rfl, by rfl, by decide⟩

/-- C7 (amended): `get_io_to_node_mapping` is a pure function; a node whose
output count differs from one is a fatal structural error; when every node
has exactly one output it returns the two mappings built in one pass, where
each output name maps to the name of its last producer in node order (hence,
when output names are pairwise distinct, each node's single output name maps
to that node's name) and each name consumed by some node maps to a consuming
node's name. -/
theorem get_io_to_node_mapping_spec (g : Graph) :
    ((∃ n ∈ g.node, n.output.length ≠ 1) →
      ∃ e, get_io_to_node_mapping g = .error e) ∧
    ((∀ n ∈ g.node, n.output.length = 1) →
      get_io_to_node_mapping g =
        .ok (input_pairs g.node, output_pairs g.node) ∧
      ((g.node.flatMap Node.output).Nodup →
        ∀ n ∈ g.node, ∀ o ∈ n.output,
          dlookup (output_pairs g.node) o = some n.name) ∧
      (∀ n ∈ g.node, ∀ i ∈ n.input,
        ∃ c ∈ g.node, i ∈ c.input ∧
          dlookup (input_pairs g.node) i = some c.name)) := by
  constructor
  · intro h
    exact ioPass_error g.node h [] []
  · intro h
    refine ⟨?_, ?_, ?_⟩
    · have := ioPass_ok g.node h [] []
      simpa [get_io_to_node_mapping] using this
    · intro hnd n hn o ho
      have hkeys : ((output_pairs g.node).map Prod.fst).Nodup := by
        rw [output_pairs_keys]
        exact hnd
      exact dlookup_of_nodup_mem hkeys (mem_output_pairs hn ho)
    · intro n hn i hi
      obtain ⟨w, hw⟩ := dlookup_isSome_of_mem (mem_input_pairs hn hi)
      obtain ⟨c, hc, rfl, hic⟩ := mem_input_pairs_elim (dlookup_mem hw)
      exact ⟨c, hc, hic, hw⟩

/-- Witness for the amended C7 on the chain graph. -/
theorem get_io_to_node_mapping_spec_witness :
    (∀ n ∈ gChain.node, n.output.length = 1) ∧
    get_io_to_node_mapping gChain =
      .ok (input_pairs gChain.node, output_pairs gChain.node) :=
  ⟨by decide, ((get_io_to_node_mapping_spec gChain).2 (by decide)).1⟩

/-- C1 counterexample: in `gMulti` the output "x" of unsafe node A is
consumed by both B and C; the input mapping keeps only the later consumer C,
so propagating the unsafe set ["A"] yields ["A", "C"]: the direct consumer B
is not present, refuting the claim that every direct consumer of an unsafe
node's outputs appears in the post-propagation result. -/
theorem propagation_misses_sibling_consumer :
    get_io_to_node_mapping gMulti =
      .ok (imapMulti, [("x", "A"), ("y", "B"), ("z", "C")]) ∧
    build_children imapMulti (nodes_to_skip gMulti) gMulti.node =
      some [("A", "C")] ∧
    propagate ["A"] [("A", "C")] = ["A", "C"] ∧
    ¬ (∀ p ∈ gMulti.node, p.name ∈ (["A"] : List String) →
        ∀ o ∈ p.output, ∀ c ∈ gMulti.node, o ∈ c.input →
          c.name ∈ propagate ["A"] [("A", "C")]) :=
  ⟨by rfl, by rfl, by rfl, by decide⟩

/-- C1 (amended): the propagation step keeps every accumulated node; for each
node of the pre-propagation unsafe set and each of its outputs whose name is
not a graph-level input/output/initializer name, the consumer recorded in the
input mapping for that output (the last consumer in node order) is present in
the post-propagation result; and the expansion is a single pass: every
element of the result is either in the pre-propagation set or such a recorded
child of a member of the pre-propagation set, so no grandchild of an
only-propagated node is added. -/
theorem propagation_one_pass (g : Graph) (imap : List (String × String))
    (keep : List String) (pairs : List (String × String))
    (hb : build_children imap (nodes_to_skip g) g.node = some pairs) :
    (∀ k ∈ keep, k ∈ propagate keep pairs) ∧
    (∀ p ∈ g.node, p.name ∈ keep → ∀ o ∈ p.output, o ∉ nodes_to_skip g →
      ∀ c, dlookup imap o = some c → c ∈ propagate keep pairs) ∧
    (∀ x ∈ propagate keep pairs, x ∈ keep ∨ ∃ k ∈ keep, (k, x) ∈ pairs) ∧
    (∀ k c, (k, c) ∈ pairs → ∃ p ∈ g.node, p.name = k ∧
      ∃ o ∈ p.output, o ∉ nodes_to_skip g ∧ dlookup imap o = some c) := by
  refine ⟨?_, ?_, ?_, ?_⟩
  · intro k hk
    exact List.mem_append_left _ hk
  · intro p hp hpk o ho hos c hc
    have hpair : (p.name, c) ∈ pairs :=
      build_children_sound hb p hp o ho hos c hc
    refine List.mem_append_right _ ?_
    rw [List.mem_flatMap]
    refine ⟨p.name, hpk, ?_⟩
    have hany : pairs.any (fun q => decide (q.1 = p.name)) = true := by
      rw [List.any_eq_true]
      exact ⟨(p.name, c), hpair, by simp⟩
    rw [if_pos hany, children_of, List.mem_map]
    exact ⟨(p.name, c), List.mem_filter.mpr ⟨hpair, by simp⟩, rfl⟩
  · intro x hx
    rcases List.mem_append.mp hx with hk | hf
    · exact Or.inl hk
    · right
      rw [List.mem_flatMap] at hf
      obtain ⟨k, hk, hxk⟩ := hf
      refine ⟨k, hk, ?_⟩
      by_cases hany : pairs.any (fun q => decide (q.1 = k)) = true
      · rw [if_pos hany, children_of, List.mem_map] at hxk
        obtain ⟨q, hq, hqx⟩ := hxk
        have hq' := List.mem_filter.mp hq
        have hq1 : q.1 = k := by simpa using hq'.2
        have hqeq : q = (k, x) := by
          rcases q with ⟨a, b⟩
          simp only at hq1 hqx
          rw [hq1, hqx]
        exact hqeq ▸ hq'.1
      · rw [if_neg hany] at hxk
        simp at hxk
  · intro k c hkc
    obtain ⟨p, hp, hpk, o, ho, hos, hlo⟩ := build_children_complete hb (k, c) hkc
    exact ⟨p, hp, hpk, o, ho, hos, hlo⟩

/-- Witness for the amended C1 on `gMulti`: the recorded child "C" of the
unsafe node "A" is present after propagation. -/
theorem propagation_one_pass_witness :
    build_children imapMulti (nodes_to_skip gMulti) gMulti.node =
      some [("A", "C")] ∧
    "C" ∈ propagate ["A"] [("A", "C")] := by
  have hb : build_children imapMulti (nodes_to_skip gMulti) gMulti.node =
      some [("A", "C")] := by rfl
  refine ⟨hb, ?_⟩
  exact (propagation_one_pass gMulti imapMulti ["A"] [("A", "C")] hb).2.1
    ⟨"A", ["inp"], ["x"]⟩ (by decide) (by decide) "x" (by decide) (by decide)
    "C" (by rfl)

/-- C10: on the chain graph with a sample stream that flags both A and B, the
returned list is ["A", "B", "B"]: B was detected unsafe by the sampling loop
(which deduplicates) and is also the recorded child of unsafe node A, and the
propagation step appends children without a membership check, so B appears
twice. -/
theorem get_keep_fp32_nodes_duplicates :
    get_keep_fp32_nodes gChain sampleBig 1 5 = some ["A", "B", "B"] ∧
    ¬ (["A", "B", "B"] : List String).Nodup :=
  ⟨by decide, by decide⟩

end OrtUtils
